import Mathlib

/-!
Verification development for the `morph` repository: a topic-based
publish/subscribe hub (`morpheus` server, `neo` client).

The definitions below are a shallow embedding of the Rust sources:

* `InMemoryStorage` and its operations mirror
  `morpheus/src/core/storage.rs` (`DashMap<Uuid, Client>` and
  `DashMap<String, Vec<Uuid>>` become association lists; `Uuid` becomes
  `Nat`).
* `ClientManager.*` mirror `morpheus/src/core/client_manager.rs`; the
  per-client mpsc delivery channels are modelled by returning the list of
  enqueue events `(recipient id, message)` an operation performs — the
  Rust functions mutate no registry state on the send paths.
* `handle_message` and `runSession` mirror `morpheus/src/ws/handler.rs`
  (`handle_message`, `client_connected`); `Uuid::new_v4()` is modelled by
  an explicitly supplied fresh identifier.
* `Neo.ClientMessage` and `ServerMessage` mirror `neo/src/core/msg.rs`
  (the wire schema).  The server-side `ClientMessage` enum lives in
  `morpheus/src/core/msg.rs`, which is not present in the tree; its shape
  is forced by the exhaustive `match` in `ws/handler.rs` (arms `Connect`,
  `Message`, `ReplyToMorpheus`, no wildcard), so it is reconstructed here
  as `Morpheus.ClientMessage` with exactly those three variants, and
  `morphDecode` models serde's tagged decoding of a wire payload into it
  (the tag `MessageReceived` is not a variant of the server enum, hence
  decoding it fails).
-/

/-- Wire-level server → client messages, from `neo/src/core/msg.rs`
(`ServerMessage`).  Message ids (`Uuid`) are modelled as `Nat`; the
`sender` field is a `String` in the source (`client_id.to_string()`). -/
inductive ServerMessage where
  | Global (id : Nat) (content : String)
  | Topic (id : Nat) (topic : String) (sender : String) (content : String)
  | Private (id : Nat) (content : String)
  | MessageDelivered (msg_id : Nat)
  | MessageAcknowledged (msg_id : Nat) (client_id : Nat)
  | Error (message : String)
deriving DecidableEq

/-- Wire-level client → server messages, from `neo/src/core/msg.rs`
(`ClientMessage`), with all four variants. -/
inductive Neo.ClientMessage where
  | Connect (topic : String)
  | Message (topic : String) (content : String)
  | ReplyToMorpheus (original_msg_id : Nat) (content : String)
  | MessageReceived (msg_id : Nat)
deriving DecidableEq

/-- Server-side client → server message enum, reconstructed from the
exhaustive `match client_message` in `morpheus/src/ws/handler.rs`, which
has arms for exactly `Connect`, `Message` and `ReplyToMorpheus` and no
wildcard (the defining file `morpheus/src/core/msg.rs` is not in the
tree; any further variant would make that `match` non-exhaustive). -/
inductive Morpheus.ClientMessage where
  | Connect (topic : String)
  | Message (topic : String) (content : String)
  | ReplyToMorpheus (original_msg_id : Nat) (content : String)
deriving DecidableEq

/-- Serde's tagged decoding of a wire payload into the server-side enum:
the three shared tags decode structurally; the tag `MessageReceived` is
unknown to the server enum, so decoding fails (`Err` in
`serde_json::from_str::<ClientMessage>`). -/
def morphDecode : Neo.ClientMessage → Option Morpheus.ClientMessage
  | .Connect topic => some (.Connect topic)
  | .Message topic content => some (.Message topic content)
  | .ReplyToMorpheus m c => some (.ReplyToMorpheus m c)
  | .MessageReceived _ => none

/-- A connected client's record, from `morpheus/src/core/storage.rs`
(`Client`).  The `sender: mpsc::Sender<ServerMessage>` handle is not a
field here: delivery is modelled by the event lists returned by the send
operations, with the recipient identified by the record's `id`. -/
structure Client where
  id : Nat
  topic : Option String
deriving DecidableEq

/-- The in-memory registry, from `morpheus/src/core/storage.rs`
(`InMemoryStorage`): `DashMap<Uuid, Client>` and
`DashMap<String, Vec<Uuid>>` as association lists. -/
structure InMemoryStorage where
  clients : List (Nat × Client)
  topics : List (String × List Nat)
deriving DecidableEq

/-- Association-list lookup (first entry with the given key), the model
of `DashMap::get`. -/
def alookup {α β : Type} [DecidableEq α] : List (α × β) → α → Option β
  | [], _ => none
  | p :: rest, k => if p.1 = k then some p.2 else alookup rest k

/-- Remove every entry with the given key, the model of
`DashMap::remove` (keys are unique in a `DashMap`). -/
def aerase {α β : Type} [DecidableEq α] (k : α) : List (α × β) → List (α × β)
  | [] => []
  | p :: rest => if p.1 = k then aerase k rest else p :: aerase k rest

/-- Apply `f` to the value of every entry with the given key, the model
of an in-place mutation through `DashMap::get_mut` (a no-op when the key
is absent). -/
def aupdate {α β : Type} [DecidableEq α] (k : α) (f : β → β) : List (α × β) → List (α × β)
  | [] => []
  | p :: rest =>
      (if p.1 = k then (p.1, f p.2) else p) :: aupdate k f rest

/-- Whether some entry has the given key (model of `DashMap` key
presence, used for `entry(..).or_default()`). -/
def akey {α β : Type} [DecidableEq α] (k : α) : List (α × β) → Bool
  | [] => false
  | p :: rest => decide (p.1 = k) || akey k rest

/-- `Vec::retain(|id| id != client_id)` on a subscriber list. -/
def eraseAllNat (cid : Nat) : List Nat → List Nat
  | [] => []
  | i :: rest => if i = cid then eraseAllNat cid rest else i :: eraseAllNat cid rest

/-- Resolve subscriber ids to client records, skipping ids whose record
is absent — the `filter_map` inside
`InMemoryStorage::get_clients_in_topic`. -/
def resolveClients (cs : List (Nat × Client)) : List Nat → List Client
  | [] => []
  | i :: rest =>
      match alookup cs i with
      | some c => c :: resolveClients cs rest
      | none => resolveClients cs rest

namespace InMemoryStorage

/-- `InMemoryStorage::new()`. -/
def empty : InMemoryStorage := ⟨[], []⟩

/-- `InMemoryStorage::add_client`: `self.clients.insert(client.id, client)`
(insert replaces any existing entry with that key). -/
def add_client (s : InMemoryStorage) (c : Client) : InMemoryStorage :=
  { s with clients := (c.id, c) :: aerase c.id s.clients }

/-- The topic-index update performed by `InMemoryStorage::remove_client`
for a removed record `c`: if the client had a topic, excise its id from
that topic's subscriber list (a no-op when the entry is absent). -/
def removeTopics (s : InMemoryStorage) (cid : Nat) (c : Client) : List (String × List Nat) :=
  match c.topic with
  | some t => aupdate t (eraseAllNat cid) s.topics
  | none => s.topics

/-- `InMemoryStorage::remove_client`: removes the record; if it had a
topic, excises the id from that topic's subscriber list; returns the
removed record, or `none` when the id is absent (in which case nothing
changes). -/
def remove_client (s : InMemoryStorage) (cid : Nat) : InMemoryStorage × Option Client :=
  match alookup s.clients cid with
  | some c => (⟨aerase cid s.clients, removeTopics s cid c⟩, some c)
  | none => (s, none)

/-- `InMemoryStorage::get_client`. -/
def get_client (s : InMemoryStorage) (cid : Nat) : Option Client :=
  alookup s.clients cid

/-- `InMemoryStorage::get_all_clients`. -/
def get_all_clients (s : InMemoryStorage) : List Client :=
  s.clients.map Prod.snd

/-- The topic-index update performed by
`InMemoryStorage::subscribe_client_to_topic` for a found record `c`:
first take the id out of the previous topic's list (`client.topic.take()`
then `retain`), then push it onto the new topic's list
(`entry(topic).or_default().push(*client_id)`). -/
def subTopics (s : InMemoryStorage) (cid : Nat) (topic : String) (c : Client) :
    List (String × List Nat) :=
  let topics1 := removeTopics s cid c
  if akey topic topics1 then aupdate topic (fun ids => ids ++ [cid]) topics1
  else topics1 ++ [(topic, [cid])]

/-- `InMemoryStorage::subscribe_client_to_topic`: if the client exists,
take it out of its previous topic's list (if any), set its `topic`
field, and push its id onto the new topic's list; no-op otherwise. -/
def subscribe_client_to_topic (s : InMemoryStorage) (cid : Nat) (topic : String) :
    InMemoryStorage :=
  match alookup s.clients cid with
  | some c =>
      ⟨aupdate cid (fun cl => { cl with topic := some topic }) s.clients,
       subTopics s cid topic c⟩
  | none => s

/-- `InMemoryStorage::get_clients_in_topic`. -/
def get_clients_in_topic (s : InMemoryStorage) (topic : String) : List Client :=
  match alookup s.topics topic with
  | some ids => resolveClients s.clients ids
  | none => []

/-- `InMemoryStorage::get_all_topics`: topic names whose subscriber list
is non-empty, filtered at read time. -/
def get_all_topics (s : InMemoryStorage) : List String :=
  (s.topics.filter (fun e => !e.2.isEmpty)).map Prod.fst

end InMemoryStorage

namespace ClientManager

/-- `ClientManager::add_client`: builds a fresh record with no topic and
registers it.  The `Uuid::new_v4()` generated id is the `cid` argument;
the spawned per-client forwarding task carries no registry state. -/
def add_client (s : InMemoryStorage) (cid : Nat) : InMemoryStorage :=
  s.add_client ⟨cid, none⟩

/-- `ClientManager::remove_client`: deregisters via the storage,
discarding the returned record. -/
def remove_client (s : InMemoryStorage) (cid : Nat) : InMemoryStorage :=
  (s.remove_client cid).1

/-- `ClientManager::subscribe_client_to_topic`: delegates to storage. -/
def subscribe_client_to_topic (s : InMemoryStorage) (cid : Nat) (topic : String) :
    InMemoryStorage :=
  s.subscribe_client_to_topic cid topic

/-- `ClientManager::send_message_to_client`: looks the recipient up and
enqueues onto its channel when found; a missing or closed recipient is
silently dropped.  The returned list holds the enqueue events
`(recipient id, message)`; no registry state is touched. -/
def send_message_to_client (s : InMemoryStorage) (cid : Nat) (msg : ServerMessage) :
    List (Nat × ServerMessage) :=
  match s.get_client cid with
  | some c => [(c.id, msg)]
  | none => []

/-- `ClientManager::send_private_message`: delegates to
`send_message_to_client`. -/
def send_private_message (s : InMemoryStorage) (cid : Nat) (msg : ServerMessage) :
    List (Nat × ServerMessage) :=
  send_message_to_client s cid msg

/-- The `for client in clients` loop of `ClientManager::broadcast_to_topic`:
skip the excluded id (`exclude_id != Some(client.id)`), otherwise send. -/
def broadcastList (s : InMemoryStorage) (msg : ServerMessage) (exclude : Option Nat) :
    List Client → List (Nat × ServerMessage)
  | [] => []
  | c :: rest =>
      if exclude = some c.id then broadcastList s msg exclude rest
      else send_message_to_client s c.id msg ++ broadcastList s msg exclude rest

/-- `ClientManager::broadcast_to_topic`. -/
def broadcast_to_topic (s : InMemoryStorage) (topic : String) (msg : ServerMessage)
    (exclude : Option Nat) : List (Nat × ServerMessage) :=
  broadcastList s msg exclude (s.get_clients_in_topic topic)

/-- The `for client in clients` loop of `ClientManager::broadcast_global`. -/
def sendAll (s : InMemoryStorage) (msg : ServerMessage) :
    List Client → List (Nat × ServerMessage)
  | [] => []
  | c :: rest => send_message_to_client s c.id msg ++ sendAll s msg rest

/-- `ClientManager::broadcast_global`. -/
def broadcast_global (s : InMemoryStorage) (msg : ServerMessage) :
    List (Nat × ServerMessage) :=
  sendAll s msg s.get_all_clients

end ClientManager

/-- `handle_message` from `morpheus/src/ws/handler.rs`, applied to the
result of serde-decoding a text frame (`none` = undecodable payload).
`fresh` stands for the `Uuid::new_v4()` drawn in the `Message` arm.
Outputs: the registry after the call, the enqueue events performed, and
the list of `handle_message_acknowledgment` calls made (as
`(client_id, msg_id)` pairs) — the source contains no such call, so that
component is `[]` in every arm. -/
def handle_message (client_id : Nat) (fresh : Nat) (decoded : Option Morpheus.ClientMessage)
    (s : InMemoryStorage) :
    InMemoryStorage × List (Nat × ServerMessage) × List (Nat × Nat) :=
  match decoded with
  | some (.Connect topic) =>
      (ClientManager.subscribe_client_to_topic s client_id topic, [], [])
  | some (.Message topic content) =>
      let message := ServerMessage.Topic fresh topic (toString client_id) content
      (s, ClientManager.broadcast_to_topic s topic message (some client_id), [])
  | some (.ReplyToMorpheus _ _) => (s, [], [])
  | none =>
      (s, ClientManager.send_private_message s client_id
            (ServerMessage.Error "Invalid message format"), [])

/-- One inbound event of the dispatch loop in `client_connected`:
an `Ok` text frame (with its decode result), an `Ok` non-text frame
(`msg.to_str()` fails, the handler ignores it), or a transport read
error (`Err`, which breaks the loop). -/
inductive Frame where
  | msg (decoded : Option Morpheus.ClientMessage)
  | nonText
  | err

/-- The dispatch loop of `client_connected` in `morpheus/src/ws/handler.rs`:
process frames in order, break on a read error, and call `remove_client`
once the loop ends.  `fresh` numbers the ids drawn by `Uuid::new_v4()`.
Outputs as in `handle_message`, accumulated. -/
def runSession (client_id : Nat) (frames : List Frame) (fresh : Nat) (s : InMemoryStorage) :
    InMemoryStorage × List (Nat × ServerMessage) × List (Nat × Nat) :=
  match frames with
  | [] => (ClientManager.remove_client s client_id, [], [])
  | .err :: _ => (ClientManager.remove_client s client_id, [], [])
  | .nonText :: rest => runSession client_id rest fresh s
  | .msg m :: rest =>
      let r := handle_message client_id fresh m s
      let r' := runSession client_id rest (fresh + 1) r.1
      (r'.1, r.2.1 ++ r'.2.1, r.2.2 ++ r'.2.2)

/-- The registry operations invoked by the system (Client Manager public
mutators; reads do not change state). -/
inductive Op where
  | addClient (cid : Nat)
  | removeClient (cid : Nat)
  | subscribe (cid : Nat) (topic : String)
deriving DecidableEq

/-- Apply one operation. -/
def applyOp : Op → InMemoryStorage → InMemoryStorage
  | .addClient cid, s => ClientManager.add_client s cid
  | .removeClient cid, s => ClientManager.remove_client s cid
  | .subscribe cid t, s => ClientManager.subscribe_client_to_topic s cid t

/-- Apply a sequence of operations, oldest first. -/
def applyOps (ops : List Op) (s : InMemoryStorage) : InMemoryStorage :=
  ops.foldl (fun s op => applyOp op s) s

/-- Side condition under which an operation is issued by the system:
`add_client` only ever registers a fresh `Uuid::new_v4()` id (spec §4.1:
"id is assumed unique (caller-generated)"). -/
def OpOK : Op → InMemoryStorage → Prop
  | .addClient cid, s => s.get_client cid = none
  | .removeClient _, _ => True
  | .subscribe _ _, _ => True

/-- Registry states reachable from the empty store by system
operations. -/
inductive Reachable : InMemoryStorage → Prop
  | empty : Reachable InMemoryStorage.empty
  | step {s : InMemoryStorage} (op : Op) : Reachable s → OpOK op s → Reachable (applyOp op s)

/-- Every stored record's `id` field equals its key (true by
construction: `clients.insert(client.id, client)`). -/
def Keyed (s : InMemoryStorage) : Prop :=
  ∀ p ∈ s.clients, p.2.id = p.1

/-- The client table has no duplicate keys. -/
def CKeysNodup (s : InMemoryStorage) : Prop :=
  (s.clients.map Prod.fst).Nodup

/-- The topic index has no duplicate keys. -/
def TKeysNodup (s : InMemoryStorage) : Prop :=
  (s.topics.map Prod.fst).Nodup

/-- Every id in a topic's subscriber list belongs to a registered client
whose own record names that topic (spec §3 invariants: no dangling
references; membership only in the topic recorded in the record). -/
def MemberTopic (s : InMemoryStorage) : Prop :=
  ∀ e ∈ s.topics, ∀ cid ∈ e.2,
    ∃ c, alookup s.clients cid = some c ∧ c.topic = some e.1

/-- Every topic's subscriber list is duplicate-free. -/
def TopicListsNodup (s : InMemoryStorage) : Prop :=
  ∀ e ∈ s.topics, e.2.Nodup

/-- The registry invariant maintained by all operations. -/
structure RegInv (s : InMemoryStorage) : Prop where
  keyed : Keyed s
  ckeys : CKeysNodup s
  tkeys : TKeysNodup s
  member : MemberTopic s
  tnodup : TopicListsNodup s

section ALemmas

variable {α β : Type} [DecidableEq α]

theorem alookup_aerase_self (k : α) (l : List (α × β)) :
    alookup (aerase k l) k = none := by
  induction l with
  | nil => rfl
  | cons p rest ih =>
    by_cases h : p.1 = k
    · simpa [aerase, h] using ih
    · simpa [aerase, h, alookup] using ih

theorem alookup_aerase_ne {k k' : α} (hne : k' ≠ k) (l : List (α × β)) :
    alookup (aerase k l) k' = alookup l k' := by
  induction l with
  | nil => rfl
  | cons p rest ih =>
    by_cases h : p.1 = k
    · have hk : k ≠ k' := fun hc => hne hc.symm
      simp [aerase, alookup, h, hk, ih]
    · simp [aerase, alookup, h, ih]

theorem alookup_aupdate_self (k : α) (f : β → β) (l : List (α × β)) :
    alookup (aupdate k f l) k = (alookup l k).map f := by
  induction l with
  | nil => rfl
  | cons p rest ih =>
    by_cases h : p.1 = k
    · simp [aupdate, h, alookup]
    · simp [aupdate, h, alookup, ih]

theorem alookup_aupdate_ne {k k' : α} (hne : k' ≠ k) (f : β → β) (l : List (α × β)) :
    alookup (aupdate k f l) k' = alookup l k' := by
  induction l with
  | nil => rfl
  | cons p rest ih =>
    by_cases h : p.1 = k
    · have hk : k ≠ k' := fun hc => hne hc.symm
      simp [aupdate, alookup, h, hk, ih]
    · simp [aupdate, alookup, h, ih]

theorem mem_of_alookup {l : List (α × β)} {k : α} {v : β}
    (h : alookup l k = some v) : (k, v) ∈ l := by
  induction l with
  | nil => simp [alookup] at h
  | cons p rest ih =>
    by_cases hk : p.1 = k
    · rw [alookup, if_pos hk] at h
      have hv : p.2 = v := Option.some.inj h
      have hp : p = (k, v) := by
        cases p
        simp_all
      rw [← hp]
      exact List.mem_cons_self _ _
    · rw [alookup, if_neg hk] at h
      exact List.mem_cons_of_mem _ (ih h)

theorem alookup_eq_none_iff {l : List (α × β)} {k : α} :
    alookup l k = none ↔ ∀ p ∈ l, p.1 ≠ k := by
  induction l with
  | nil => simp [alookup]
  | cons p rest ih =>
    by_cases hk : p.1 = k
    · simp [alookup, hk]
    · simp [alookup, hk, ih]

theorem alookup_isSome_of_mem {l : List (α × β)} {p : α × β} (h : p ∈ l) :
    (alookup l p.1).isSome := by
  induction l with
  | nil => simp at h
  | cons q rest ih =>
    rcases List.mem_cons.mp h with h | h
    · subst h
      simp [alookup]
    · by_cases hq : q.1 = p.1
      · simp [alookup, hq]
      · simpa [alookup, hq] using ih h

theorem aerase_eq_of_none {l : List (α × β)} {k : α}
    (h : alookup l k = none) : aerase k l = l := by
  induction l with
  | nil => rfl
  | cons p rest ih =>
    rw [alookup_eq_none_iff] at h
    have hp : p.1 ≠ k := h p (List.mem_cons_self p rest)
    have hrest : alookup rest k = none := by
      rw [alookup_eq_none_iff]
      exact fun q hq => h q (List.mem_cons_of_mem _ hq)
    simp [aerase, hp, ih hrest]

theorem mem_of_mem_aerase {l : List (α × β)} {k : α} {p : α × β}
    (h : p ∈ aerase k l) : p ∈ l := by
  induction l with
  | nil => simp [aerase] at h
  | cons q rest ih =>
    by_cases hq : q.1 = k
    · rw [aerase, if_pos hq] at h
      exact List.mem_cons_of_mem _ (ih h)
    · rw [aerase, if_neg hq] at h
      rcases List.mem_cons.mp h with h | h
      · exact h ▸ List.mem_cons_self q rest
      · exact List.mem_cons_of_mem _ (ih h)

theorem keys_aerase_sublist (k : α) (l : List (α × β)) :
    ((aerase k l).map Prod.fst).Sublist (l.map Prod.fst) := by
  induction l with
  | nil => simp [aerase]
  | cons q rest ih =>
    by_cases hq : q.1 = k
    · rw [aerase, if_pos hq]
      simp only [List.map_cons]
      exact List.Sublist.cons _ ih
    · rw [aerase, if_neg hq]
      simp only [List.map_cons]
      exact List.Sublist.cons₂ _ ih

theorem aupdate_eq_map (k : α) (f : β → β) (l : List (α × β)) :
    aupdate k f l = l.map (fun p => if p.1 = k then (p.1, f p.2) else p) := by
  induction l with
  | nil => rfl
  | cons p rest ih => simp [aupdate, ih]

theorem keys_aupdate (k : α) (f : β → β) (l : List (α × β)) :
    (aupdate k f l).map Prod.fst = l.map Prod.fst := by
  rw [aupdate_eq_map, List.map_map]
  apply List.map_congr_left
  intro p _
  by_cases hp : p.1 = k <;> simp [hp]

theorem mem_aupdate {l : List (α × β)} {k : α} {f : β → β} {p : α × β}
    (h : p ∈ aupdate k f l) :
    ∃ q ∈ l, p = if q.1 = k then (q.1, f q.2) else q := by
  rw [aupdate_eq_map] at h
  rcases List.mem_map.mp h with ⟨q, hq, hpq⟩
  exact ⟨q, hq, hpq.symm⟩

theorem akey_iff {l : List (α × β)} {k : α} :
    akey k l = true ↔ ∃ p ∈ l, p.1 = k := by
  induction l with
  | nil => simp [akey]
  | cons p rest ih =>
    by_cases hp : p.1 = k
    · simp [akey, hp]
    · simp [akey, hp, ih]

theorem alookup_isSome_iff_akey {l : List (α × β)} {k : α} :
    (alookup l k).isSome ↔ akey k l = true := by
  induction l with
  | nil => simp [alookup, akey]
  | cons p rest ih =>
    by_cases hp : p.1 = k
    · simp [alookup, akey, hp]
    · simp [alookup, akey, hp, ih]

theorem alookup_append_of_none {l l2 : List (α × β)} {k : α}
    (h : alookup l k = none) : alookup (l ++ l2) k = alookup l2 k := by
  induction l with
  | nil => rfl
  | cons p rest ih =>
    rw [alookup_eq_none_iff] at h
    have hp : p.1 ≠ k := h p (List.mem_cons_self p rest)
    have hrest : alookup rest k = none := by
      rw [alookup_eq_none_iff]
      exact fun q hq => h q (List.mem_cons_of_mem _ hq)
    simp [alookup, hp, ih hrest]

theorem alookup_append_of_some {l l2 : List (α × β)} {k : α} {v : β}
    (h : alookup l k = some v) : alookup (l ++ l2) k = some v := by
  induction l with
  | nil => simp [alookup] at h
  | cons p rest ih =>
    by_cases hp : p.1 = k
    · rw [alookup, if_pos hp] at h
      simp [alookup, hp, h]
    · rw [alookup, if_neg hp] at h
      simp [alookup, hp, ih h]

end ALemmas

theorem mem_eraseAllNat {cid x : Nat} {l : List Nat}
    (h : x ∈ eraseAllNat cid l) : x ∈ l ∧ x ≠ cid := by
  induction l with
  | nil => simp [eraseAllNat] at h
  | cons i rest ih =>
    by_cases hi : i = cid
    · rw [eraseAllNat, if_pos hi] at h
      exact ⟨List.mem_cons_of_mem _ (ih h).1, (ih h).2⟩
    · rw [eraseAllNat, if_neg hi] at h
      rcases List.mem_cons.mp h with h | h
      · exact ⟨h ▸ List.mem_cons_self i rest, h ▸ hi⟩
      · exact ⟨List.mem_cons_of_mem _ (ih h).1, (ih h).2⟩

theorem not_mem_eraseAllNat (cid : Nat) (l : List Nat) :
    cid ∉ eraseAllNat cid l :=
  fun h => (mem_eraseAllNat h).2 rfl

theorem eraseAllNat_sublist (cid : Nat) (l : List Nat) :
    (eraseAllNat cid l).Sublist l := by
  induction l with
  | nil => simp [eraseAllNat]
  | cons i rest ih =>
    by_cases hi : i = cid
    · rw [eraseAllNat, if_pos hi]
      exact ih.cons _
    · rw [eraseAllNat, if_neg hi]
      exact ih.cons₂ _

theorem nodup_eraseAllNat {cid : Nat} {l : List Nat} (h : l.Nodup) :
    (eraseAllNat cid l).Nodup :=
  h.sublist (eraseAllNat_sublist cid l)

theorem mem_resolveClients {cs : List (Nat × Client)} {ids : List Nat} {c : Client}
    (h : c ∈ resolveClients cs ids) : ∃ i ∈ ids, alookup cs i = some c := by
  induction ids with
  | nil => simp [resolveClients] at h
  | cons i rest ih =>
    rw [resolveClients] at h
    cases hl : alookup cs i with
    | some c' =>
      rw [hl] at h
      rcases List.mem_cons.mp h with h | h
      · exact ⟨i, List.mem_cons_self i rest, h ▸ hl⟩
      · rcases ih h with ⟨j, hj, hlj⟩
        exact ⟨j, List.mem_cons_of_mem _ hj, hlj⟩
    | none =>
      rw [hl] at h
      rcases ih h with ⟨j, hj, hlj⟩
      exact ⟨j, List.mem_cons_of_mem _ hj, hlj⟩

theorem map_id_resolveClients {cs : List (Nat × Client)}
    (hk : ∀ p ∈ cs, p.2.id = p.1) (ids : List Nat) :
    (resolveClients cs ids).map Client.id = ids.filter (fun i => (alookup cs i).isSome) := by
  induction ids with
  | nil => rfl
  | cons i rest ih =>
    rw [resolveClients]
    cases hl : alookup cs i with
    | some c =>
      have : c.id = i := hk (i, c) (mem_of_alookup hl)
      simp [List.filter_cons, hl, this, ih]
    | none => simp [List.filter_cons, hl, ih]

open InMemoryStorage in
theorem removeTopics_carry {s : InMemoryStorage} {cid : Nat} {c : Client} :
    ∀ e1 ∈ removeTopics s cid c, ∃ e0 ∈ s.topics, e0.1 = e1.1 ∧ ∀ x ∈ e1.2, x ∈ e0.2 := by
  intro e1 he1
  cases hct : c.topic with
  | some old =>
    simp only [removeTopics, hct] at he1
    obtain ⟨q, hq, he⟩ := mem_aupdate he1
    by_cases hqo : q.1 = old
    · rw [if_pos hqo] at he
      subst he
      exact ⟨q, hq, rfl, fun x hx => (mem_eraseAllNat hx).1⟩
    · rw [if_neg hqo] at he
      exact ⟨q, hq, (congrArg Prod.fst he).symm, fun x hx => he ▸ hx⟩
  | none =>
    simp only [removeTopics, hct] at he1
    exact ⟨e1, he1, rfl, fun x hx => hx⟩

open InMemoryStorage in
theorem removeTopics_not_mem {s : InMemoryStorage} {cid : Nat} {c : Client}
    (h : RegInv s) (hl : alookup s.clients cid = some c) :
    ∀ e1 ∈ removeTopics s cid c, cid ∉ e1.2 := by
  intro e1 he1 hmem
  cases hct : c.topic with
  | some old =>
    simp only [removeTopics, hct] at he1
    obtain ⟨q, hq, he⟩ := mem_aupdate he1
    by_cases hqo : q.1 = old
    · rw [if_pos hqo] at he
      subst he
      exact not_mem_eraseAllNat cid q.2 hmem
    · rw [if_neg hqo] at he
      rw [he] at hmem
      obtain ⟨c', hc', hct'⟩ := h.member q hq cid hmem
      rw [hl] at hc'
      rw [← Option.some.inj hc', hct] at hct'
      exact hqo (Option.some.inj hct').symm
  | none =>
    simp only [removeTopics, hct] at he1
    obtain ⟨c', hc', hct'⟩ := h.member e1 he1 cid hmem
    rw [hl] at hc'
    rw [← Option.some.inj hc', hct] at hct'
    exact Option.noConfusion hct'

open InMemoryStorage in
theorem removeTopics_nodup {s : InMemoryStorage} {cid : Nat} {c : Client}
    (h : TopicListsNodup s) :
    ∀ e1 ∈ removeTopics s cid c, e1.2.Nodup := by
  intro e1 he1
  cases hct : c.topic with
  | some old =>
    simp only [removeTopics, hct] at he1
    obtain ⟨q, hq, he⟩ := mem_aupdate he1
    by_cases hqo : q.1 = old
    · rw [if_pos hqo] at he
      subst he
      exact nodup_eraseAllNat (h q hq)
    · rw [if_neg hqo] at he
      rw [he]
      exact h q hq
  | none =>
    simp only [removeTopics, hct] at he1
    exact h e1 he1

open InMemoryStorage in
theorem removeTopics_keys {s : InMemoryStorage} {cid : Nat} {c : Client} :
    (removeTopics s cid c).map Prod.fst = s.topics.map Prod.fst := by
  cases hct : c.topic with
  | some old =>
    simp only [removeTopics, hct]
    exact keys_aupdate old _ s.topics
  | none => simp only [removeTopics, hct]

theorem mem_keys_nodup_eq {α β : Type} {l : List (α × β)} (h : (l.map Prod.fst).Nodup)
    {e1 e2 : α × β} (h1 : e1 ∈ l) (h2 : e2 ∈ l) (hk : e1.1 = e2.1) : e1 = e2 := by
  induction l with
  | nil => cases h1
  | cons p rest ih =>
    rw [List.map_cons, List.nodup_cons] at h
    rcases List.mem_cons.mp h1 with h1 | h1 <;> rcases List.mem_cons.mp h2 with h2 | h2
    · rw [h1, h2]
    · exfalso
      apply h.1
      rw [← h1, hk]
      exact List.mem_map_of_mem _ h2
    · exfalso
      apply h.1
      rw [← h2, ← hk]
      exact List.mem_map_of_mem _ h1
    · exact ih h.2 h1 h2

open InMemoryStorage in
theorem reginv_add {s : InMemoryStorage} {cid : Nat} (h : RegInv s)
    (hfresh : s.get_client cid = none) :
    RegInv (ClientManager.add_client s cid) := by
  have hf : alookup s.clients cid = none := hfresh
  have herase : aerase cid s.clients = s.clients := aerase_eq_of_none hf
  have hcl : (ClientManager.add_client s cid).clients
      = (cid, ⟨cid, none⟩) :: s.clients := by
    simp [ClientManager.add_client, InMemoryStorage.add_client, herase]
  have htp : (ClientManager.add_client s cid).topics = s.topics := rfl
  constructor
  · intro p hp
    rw [hcl] at hp
    rcases List.mem_cons.mp hp with hp | hp
    · subst hp
      rfl
    · exact h.keyed p hp
  · show ((ClientManager.add_client s cid).clients.map Prod.fst).Nodup
    rw [hcl, List.map_cons]
    refine List.nodup_cons.mpr ⟨?_, h.ckeys⟩
    intro hmem
    obtain ⟨p, hp, hpk⟩ := List.mem_map.mp hmem
    exact (alookup_eq_none_iff.mp hf p hp) hpk
  · show ((ClientManager.add_client s cid).topics.map Prod.fst).Nodup
    rw [htp]
    exact h.tkeys
  · intro e he x hx
    rw [htp] at he
    obtain ⟨c', hc', hct'⟩ := h.member e he x hx
    have hxc : x ≠ cid := by
      intro hh
      rw [hh, hf] at hc'
      cases hc'
    refine ⟨c', ?_, hct'⟩
    show alookup (ClientManager.add_client s cid).clients x = some c'
    rw [hcl]
    simp only [alookup]
    rw [if_neg (fun hh => hxc hh.symm)]
    exact hc'
  · intro e he
    rw [htp] at he
    exact h.tnodup e he

open InMemoryStorage in
theorem reginv_remove {s : InMemoryStorage} (h : RegInv s) (cid : Nat) :
    RegInv (ClientManager.remove_client s cid) := by
  cases hl : alookup s.clients cid with
  | none =>
    have hs : ClientManager.remove_client s cid = s := by
      simp [ClientManager.remove_client, InMemoryStorage.remove_client, hl]
    rw [hs]
    exact h
  | some c =>
    have hs : ClientManager.remove_client s cid
        = ⟨aerase cid s.clients, removeTopics s cid c⟩ := by
      simp [ClientManager.remove_client, InMemoryStorage.remove_client, hl]
    rw [hs]
    constructor
    · intro p hp
      exact h.keyed p (mem_of_mem_aerase hp)
    · exact h.ckeys.sublist (keys_aerase_sublist cid s.clients)
    · show ((removeTopics s cid c).map Prod.fst).Nodup
      rw [removeTopics_keys]
      exact h.tkeys
    · intro e1 he1 x hx
      obtain ⟨e0, he0, hkey, hsub⟩ := removeTopics_carry e1 he1
      obtain ⟨c', hc', hct'⟩ := h.member e0 he0 x (hsub x hx)
      have hxne : x ≠ cid := fun hh => removeTopics_not_mem h hl e1 he1 (hh ▸ hx)
      refine ⟨c', ?_, ?_⟩
      · show alookup (aerase cid s.clients) x = some c'
        rw [alookup_aerase_ne hxne]
        exact hc'
      · rw [hct', hkey]
    · intro e1 he1
      exact removeTopics_nodup h.tnodup e1 he1

open InMemoryStorage in
theorem reginv_subscribe {s : InMemoryStorage} (h : RegInv s) (cid : Nat) (t : String) :
    RegInv (ClientManager.subscribe_client_to_topic s cid t) := by
  cases hl : alookup s.clients cid with
  | none =>
    have hs : ClientManager.subscribe_client_to_topic s cid t = s := by
      simp [ClientManager.subscribe_client_to_topic,
        InMemoryStorage.subscribe_client_to_topic, hl]
    rw [hs]
    exact h
  | some c =>
    have hs : ClientManager.subscribe_client_to_topic s cid t
        = ⟨aupdate cid (fun cl => { cl with topic := some t }) s.clients,
           subTopics s cid t c⟩ := by
      simp [ClientManager.subscribe_client_to_topic,
        InMemoryStorage.subscribe_client_to_topic, hl]
    rw [hs]
    have hlook_self :
        alookup (aupdate cid (fun cl => { cl with topic := some t }) s.clients) cid
          = some { c with topic := some t } := by
      rw [alookup_aupdate_self, hl]
      rfl
    have hlook_ne : ∀ x, x ≠ cid →
        alookup (aupdate cid (fun cl => { cl with topic := some t }) s.clients) x
          = alookup s.clients x :=
      fun x hx => alookup_aupdate_ne hx _ s.clients
    have hmem1 : ∀ e1 ∈ removeTopics s cid c, ∀ x ∈ e1.2,
        ∃ c', alookup (aupdate cid (fun cl => { cl with topic := some t }) s.clients) x
            = some c' ∧ c'.topic = some e1.1 := by
      intro e1 he1 x hx
      have hxc : x ≠ cid := fun hh => removeTopics_not_mem h hl e1 he1 (hh ▸ hx)
      obtain ⟨e0, he0, hkey, hsub⟩ := removeTopics_carry e1 he1
      obtain ⟨c', hc', hct'⟩ := h.member e0 he0 x (hsub x hx)
      refine ⟨c', ?_, ?_⟩
      · rw [hlook_ne x hxc]
        exact hc'
      · rw [hct', hkey]
    constructor
    · intro p hp
      obtain ⟨q, hq, he⟩ := mem_aupdate hp
      by_cases hqc : q.1 = cid
      · rw [if_pos hqc] at he
        subst he
        exact h.keyed q hq
      · rw [if_neg hqc] at he
        rw [he]
        exact h.keyed q hq
    · show ((aupdate cid (fun cl => { cl with topic := some t }) s.clients).map
        Prod.fst).Nodup
      rw [keys_aupdate]
      exact h.ckeys
    · show ((subTopics s cid t c).map Prod.fst).Nodup
      by_cases hak : akey t (removeTopics s cid c)
      · simp only [subTopics, if_pos hak]
        rw [keys_aupdate, removeTopics_keys]
        exact h.tkeys
      · simp only [subTopics, if_neg hak]
        rw [List.map_append, removeTopics_keys]
        refine List.Nodup.append h.tkeys (List.nodup_singleton t) ?_
        intro a ha hat
        rw [List.mem_singleton.mp hat] at ha
        rw [← @removeTopics_keys s cid c] at ha
        obtain ⟨p, hp, hpk⟩ := List.mem_map.mp ha
        exact absurd (akey_iff.mpr ⟨p, hp, hpk⟩) (by simpa using hak)
    · intro e' he' x hx
      by_cases hak : akey t (removeTopics s cid c)
      · simp only [subTopics, if_pos hak] at he'
        obtain ⟨q, hq, he⟩ := mem_aupdate he'
        by_cases hqt : q.1 = t
        · rw [if_pos hqt] at he
          subst he
          rcases List.mem_append.mp hx with hx | hx
          · exact hmem1 q hq x hx
          · rw [List.mem_singleton.mp hx]
            refine ⟨{ c with topic := some t }, hlook_self, ?_⟩
            rw [hqt]
        · rw [if_neg hqt] at he
          rw [he] at hx ⊢
          exact hmem1 q hq x hx
      · simp only [subTopics, if_neg hak] at he'
        rcases List.mem_append.mp he' with he' | he'
        · exact hmem1 e' he' x hx
        · rw [List.mem_singleton.mp he'] at hx ⊢
          rw [List.mem_singleton.mp hx]
          exact ⟨{ c with topic := some t }, hlook_self, rfl⟩
    · intro e' he'
      by_cases hak : akey t (removeTopics s cid c)
      · simp only [subTopics, if_pos hak] at he'
        obtain ⟨q, hq, he⟩ := mem_aupdate he'
        by_cases hqt : q.1 = t
        · rw [if_pos hqt] at he
          subst he
          refine List.Nodup.append (removeTopics_nodup h.tnodup q hq)
            (List.nodup_singleton cid) ?_
          intro a ha hat
          rw [List.mem_singleton.mp hat] at ha
          exact removeTopics_not_mem h hl q hq ha
        · rw [if_neg hqt] at he
          rw [he]
          exact removeTopics_nodup h.tnodup q hq
      · simp only [subTopics, if_neg hak] at he'
        rcases List.mem_append.mp he' with he' | he'
        · exact removeTopics_nodup h.tnodup e' he'
        · rw [List.mem_singleton.mp he']
          exact List.nodup_singleton cid

theorem reginv_empty : RegInv InMemoryStorage.empty := by
  refine ⟨?_, ?_, ?_, ?_, ?_⟩ <;>
    simp [InMemoryStorage.empty, Keyed, CKeysNodup, TKeysNodup, MemberTopic, TopicListsNodup]

theorem reginv_applyOp {s : InMemoryStorage} {op : Op} (h : RegInv s) (hok : OpOK op s) :
    RegInv (applyOp op s) := by
  cases op with
  | addClient cid => exact reginv_add h hok
  | removeClient cid => exact reginv_remove h cid
  | subscribe cid t => exact reginv_subscribe h cid t

theorem reachable_reginv {s : InMemoryStorage} (h : Reachable s) : RegInv s := by
  induction h with
  | empty => exact reginv_empty
  | step op hr hok ih => exact reginv_applyOp ih hok

theorem keyed_lookup_id {s : InMemoryStorage} (hk : Keyed s) {x : Nat} {c' : Client}
    (h : alookup s.clients x = some c') : c'.id = x :=
  hk (x, c') (mem_of_alookup h)

theorem mem_get_all_clients_lookup {s : InMemoryStorage} (hk : Keyed s) :
    ∀ c ∈ s.get_all_clients, ∃ c', alookup s.clients c.id = some c' ∧ c'.id = c.id := by
  intro c hc
  obtain ⟨p, hp, hpc⟩ := List.mem_map.mp hc
  have hid : c.id = p.1 := by
    rw [← hpc]
    exact hk p hp
  obtain ⟨c', hc'⟩ := Option.isSome_iff_exists.mp (alookup_isSome_of_mem hp)
  refine ⟨c', ?_, ?_⟩
  · rw [hid]
    exact hc'
  · rw [keyed_lookup_id hk hc', hid]

theorem sendAll_eq {s : InMemoryStorage} {msg : ServerMessage} {l : List Client}
    (hl : ∀ c ∈ l, ∃ c', alookup s.clients c.id = some c' ∧ c'.id = c.id) :
    ClientManager.sendAll s msg l = l.map (fun c => (c.id, msg)) := by
  induction l with
  | nil => rfl
  | cons c rest ih =>
    obtain ⟨c', hc', hid⟩ := hl c (List.mem_cons_self c rest)
    have ihr := ih (fun c2 hc2 => hl c2 (List.mem_cons_of_mem _ hc2))
    simp [ClientManager.sendAll, ClientManager.send_message_to_client,
      InMemoryStorage.get_client, hc', hid, ihr]

theorem broadcast_global_eq {s : InMemoryStorage} {msg : ServerMessage} (hk : Keyed s) :
    ClientManager.broadcast_global s msg = s.get_all_clients.map (fun c => (c.id, msg)) :=
  sendAll_eq (mem_get_all_clients_lookup hk)

theorem mem_get_clients_in_topic_lookup {s : InMemoryStorage} {t : String} (hk : Keyed s) :
    ∀ c ∈ s.get_clients_in_topic t, alookup s.clients c.id = some c := by
  intro c hc
  cases hl : alookup s.topics t with
  | none =>
    simp only [InMemoryStorage.get_clients_in_topic, hl] at hc
    cases hc
  | some ids =>
    simp only [InMemoryStorage.get_clients_in_topic, hl] at hc
    obtain ⟨i, _, hlic⟩ := mem_resolveClients hc
    rw [keyed_lookup_id hk hlic]
    exact hlic

theorem broadcastList_exclude_eq {s : InMemoryStorage} {msg : ServerMessage} {cid : Nat}
    {l : List Client} (hl : ∀ c ∈ l, alookup s.clients c.id = some c) :
    ClientManager.broadcastList s msg (some cid) l
      = (l.filter (fun c => c.id ≠ cid)).map (fun c => (c.id, msg)) := by
  induction l with
  | nil => rfl
  | cons c rest ih =>
    have hc := hl c (List.mem_cons_self c rest)
    have ihr := ih (fun c2 hc2 => hl c2 (List.mem_cons_of_mem _ hc2))
    by_cases hcc : cid = c.id
    · subst hcc
      simp [ClientManager.broadcastList, List.filter_cons, ihr]
    · have hne : ¬c.id = cid := fun hh => hcc hh.symm
      simp [ClientManager.broadcastList, ClientManager.send_message_to_client,
        InMemoryStorage.get_client, List.filter_cons, hcc, hne, hc, ihr]

theorem recipients_mem {s : InMemoryStorage} {msg : ServerMessage} {ex : Option Nat}
    {l : List Client} (hk : Keyed s) :
    ∀ d ∈ ClientManager.broadcastList s msg ex l, ∃ c ∈ l, d.1 = c.id := by
  induction l with
  | nil =>
    intro d hd
    cases hd
  | cons c rest ih =>
    intro d hd
    simp only [ClientManager.broadcastList] at hd
    by_cases hex : ex = some c.id
    · rw [if_pos hex] at hd
      obtain ⟨c2, hc2, hd2⟩ := ih d hd
      exact ⟨c2, List.mem_cons_of_mem _ hc2, hd2⟩
    · rw [if_neg hex] at hd
      rcases List.mem_append.mp hd with hd | hd
      · cases hg : s.get_client c.id with
        | none =>
          simp only [ClientManager.send_message_to_client, hg] at hd
          cases hd
        | some c' =>
          simp only [ClientManager.send_message_to_client, hg] at hd
          refine ⟨c, List.mem_cons_self c rest, ?_⟩
          rw [List.mem_singleton.mp hd]
          exact keyed_lookup_id hk hg
      · obtain ⟨c2, hc2, hd2⟩ := ih d hd
        exact ⟨c2, List.mem_cons_of_mem _ hc2, hd2⟩

theorem recipients_nodup {s : InMemoryStorage} {msg : ServerMessage} {ex : Option Nat}
    {l : List Client} (hk : Keyed s) (hn : (l.map Client.id).Nodup) :
    ((ClientManager.broadcastList s msg ex l).map Prod.fst).Nodup := by
  induction l with
  | nil => simp [ClientManager.broadcastList]
  | cons c rest ih =>
    rw [List.map_cons, List.nodup_cons] at hn
    simp only [ClientManager.broadcastList]
    by_cases hex : ex = some c.id
    · rw [if_pos hex]
      exact ih hn.2
    · rw [if_neg hex, List.map_append]
      cases hg : s.get_client c.id with
      | none =>
        simp only [ClientManager.send_message_to_client, hg]
        simpa using ih hn.2
      | some c' =>
        simp only [ClientManager.send_message_to_client, hg, List.map_cons, List.map_nil,
          List.singleton_append]
        refine List.nodup_cons.mpr ⟨?_, ih hn.2⟩
        intro hmem
        obtain ⟨d, hd, hdfst⟩ := List.mem_map.mp hmem
        obtain ⟨c2, hc2, hd1⟩ := recipients_mem hk d hd
        apply hn.1
        rw [← keyed_lookup_id hk hg, ← hdfst, hd1]
        exact List.mem_map_of_mem _ hc2

theorem get_clients_in_topic_ids_nodup {s : InMemoryStorage} (h : RegInv s) (t : String) :
    ((s.get_clients_in_topic t).map Client.id).Nodup := by
  cases hl : alookup s.topics t with
  | none => simp [InMemoryStorage.get_clients_in_topic, hl]
  | some ids =>
    simp only [InMemoryStorage.get_clients_in_topic, hl]
    rw [map_id_resolveClients h.keyed]
    exact (h.tnodup (t, ids) (mem_of_alookup hl)).filter _

theorem getId_preserved {cid : Nat} {op : Op} {s : InMemoryStorage}
    (hop : op ≠ Op.removeClient cid)
    (h : (s.get_client cid).map Client.id = some cid) :
    ((applyOp op s).get_client cid).map Client.id = some cid := by
  cases op with
  | addClient cid' =>
    show (alookup ((cid', ⟨cid', none⟩) :: aerase cid' s.clients) cid).map Client.id
      = some cid
    by_cases hc : cid' = cid
    · subst hc
      simp [alookup]
    · simp only [alookup, if_neg hc]
      rw [alookup_aerase_ne (fun hh => hc hh.symm)]
      exact h
  | removeClient cid' =>
    have hne : cid' ≠ cid := fun hh => hop (by rw [hh])
    cases hl : alookup s.clients cid' with
    | none =>
      have hs : applyOp (Op.removeClient cid') s = s := by
        simp [applyOp, ClientManager.remove_client, InMemoryStorage.remove_client, hl]
      rw [hs]
      exact h
    | some c =>
      have hs : (applyOp (Op.removeClient cid') s).clients = aerase cid' s.clients := by
        simp [applyOp, ClientManager.remove_client, InMemoryStorage.remove_client, hl]
      show (alookup (applyOp (Op.removeClient cid') s).clients cid).map Client.id = some cid
      rw [hs, alookup_aerase_ne (fun hh => hne hh.symm)]
      exact h
  | subscribe cid' t =>
    cases hl : alookup s.clients cid' with
    | none =>
      have hs : applyOp (Op.subscribe cid' t) s = s := by
        simp [applyOp, ClientManager.subscribe_client_to_topic,
          InMemoryStorage.subscribe_client_to_topic, hl]
      rw [hs]
      exact h
    | some c =>
      have hs : (applyOp (Op.subscribe cid' t) s).clients
          = aupdate cid' (fun cl => { cl with topic := some t }) s.clients := by
        simp [applyOp, ClientManager.subscribe_client_to_topic,
          InMemoryStorage.subscribe_client_to_topic, hl]
      show (alookup (applyOp (Op.subscribe cid' t) s).clients cid).map Client.id = some cid
      rw [hs]
      by_cases hc : cid' = cid
      · subst hc
        rw [alookup_aupdate_self, hl]
        have hcid : c.id = cid' := by
          have h' : (alookup s.clients cid').map Client.id = some cid' := h
          rw [hl] at h'
          exact Option.some.inj h'
        simp [hcid]
      · rw [alookup_aupdate_ne (fun hh => hc hh.symm)]
        exact h

theorem getId_preserved_ops {cid : Nat} {ops : List Op} {s : InMemoryStorage}
    (hop : Op.removeClient cid ∉ ops)
    (h : (s.get_client cid).map Client.id = some cid) :
    ((applyOps ops s).get_client cid).map Client.id = some cid := by
  induction ops generalizing s with
  | nil => exact h
  | cons op rest ih =>
    have hstep : applyOps (op :: rest) s = applyOps rest (applyOp op s) := rfl
    rw [hstep]
    exact ih (fun hh => hop (List.mem_cons_of_mem _ hh))
      (getId_preserved (fun hh => hop (hh ▸ List.mem_cons_self op rest)) h)

theorem get_client_after_remove (s : InMemoryStorage) (cid : Nat) :
    (ClientManager.remove_client s cid).get_client cid = none := by
  cases hl : alookup s.clients cid with
  | none =>
    have hs : ClientManager.remove_client s cid = s := by
      simp [ClientManager.remove_client, InMemoryStorage.remove_client, hl]
    rw [hs]
    exact hl
  | some c =>
    have hs : (ClientManager.remove_client s cid).clients = aerase cid s.clients := by
      simp [ClientManager.remove_client, InMemoryStorage.remove_client, hl]
    show alookup (ClientManager.remove_client s cid).clients cid = none
    rw [hs]
    exact alookup_aerase_self cid s.clients

theorem remove_client_noop {s : InMemoryStorage} {cid : Nat}
    (h : s.get_client cid = none) : ClientManager.remove_client s cid = s := by
  have h' : alookup s.clients cid = none := h
  simp [ClientManager.remove_client, InMemoryStorage.remove_client, h']

theorem keyed_subscribe {s : InMemoryStorage} (hk : Keyed s) (cid : Nat) (t : String) :
    Keyed (ClientManager.subscribe_client_to_topic s cid t) := by
  cases hl : alookup s.clients cid with
  | none =>
    have hs : ClientManager.subscribe_client_to_topic s cid t = s := by
      simp [ClientManager.subscribe_client_to_topic,
        InMemoryStorage.subscribe_client_to_topic, hl]
    rw [hs]
    exact hk
  | some c =>
    have hs : (ClientManager.subscribe_client_to_topic s cid t).clients
        = aupdate cid (fun cl => { cl with topic := some t }) s.clients := by
      simp [ClientManager.subscribe_client_to_topic,
        InMemoryStorage.subscribe_client_to_topic, hl]
    intro p hp
    rw [hs] at hp
    obtain ⟨q, hq, he⟩ := mem_aupdate hp
    by_cases hqc : q.1 = cid
    · rw [if_pos hqc] at he
      subst he
      exact hk q hq
    · rw [if_neg hqc] at he
      rw [he]
      exact hk q hq

open InMemoryStorage in
theorem alookup_subTopics_other {s : InMemoryStorage} {cid : Nat} {t t' : String}
    {c : Client} (hne : t' ≠ t) :
    alookup (subTopics s cid t c) t' = alookup (removeTopics s cid c) t' := by
  simp only [subTopics]
  by_cases hak : akey t (removeTopics s cid c)
  · rw [if_pos hak]
    exact alookup_aupdate_ne hne _ _
  · rw [if_neg hak]
    cases hl : alookup (removeTopics s cid c) t' with
    | some ids => rw [alookup_append_of_some hl]
    | none =>
      rw [alookup_append_of_none hl]
      simp only [alookup]
      rw [if_neg (fun hh => hne hh.symm)]

open InMemoryStorage in
theorem alookup_removeTopics_self {s : InMemoryStorage} {cid : Nat} {c : Client}
    {old : String} (hct : c.topic = some old) :
    alookup (removeTopics s cid c) old = (alookup s.topics old).map (eraseAllNat cid) := by
  simp only [removeTopics, hct]
  exact alookup_aupdate_self old _ s.topics

open InMemoryStorage in
theorem alookup_subTopics_self {s : InMemoryStorage} {cid : Nat} {t : String} {c : Client} :
    ∃ ids, alookup (subTopics s cid t c) t = some ids ∧ cid ∈ ids := by
  simp only [subTopics]
  by_cases hak : akey t (removeTopics s cid c)
  · rw [if_pos hak, alookup_aupdate_self]
    obtain ⟨ids, hids⟩ := Option.isSome_iff_exists.mp (alookup_isSome_iff_akey.mpr hak)
    rw [hids]
    exact ⟨ids ++ [cid], rfl, by simp⟩
  · rw [if_neg hak]
    have hnone : alookup (removeTopics s cid c) t = none := by
      cases hq : alookup (removeTopics s cid c) t with
      | none => rfl
      | some ids =>
        exact absurd (alookup_isSome_iff_akey.mp (by rw [hq]; rfl)) (by simpa using hak)
    rw [alookup_append_of_none hnone]
    refine ⟨[cid], ?_, by simp⟩
    simp [alookup]

theorem resolveClients_mem_of {cs : List (Nat × Client)} {ids : List Nat} {i : Nat}
    {c : Client} (hi : i ∈ ids) (hc : alookup cs i = some c) :
    c ∈ resolveClients cs ids := by
  induction ids with
  | nil => cases hi
  | cons j rest ih =>
    rcases List.mem_cons.mp hi with hi | hi
    · subst hi
      simp only [resolveClients, hc]
      exact List.mem_cons_self _ _
    · cases hj : alookup cs j with
      | some cj =>
        simp only [resolveClients, hj]
        exact List.mem_cons_of_mem _ (ih hi)
      | none =>
        simp only [resolveClients, hj]
        exact ih hi

instance (s : InMemoryStorage) : Decidable (Keyed s) :=
  decidable_of_iff (∀ p ∈ s.clients, p.2.id = p.1) Iff.rfl

instance (s : InMemoryStorage) : Decidable (TKeysNodup s) :=
  decidable_of_iff ((s.topics.map Prod.fst).Nodup) Iff.rfl

theorem alookup_of_mem_nodup {α β : Type} [DecidableEq α] {l : List (α × β)}
    (hn : (l.map Prod.fst).Nodup) {k : α} {v : β} (hm : (k, v) ∈ l) :
    alookup l k = some v := by
  induction l with
  | nil => cases hm
  | cons p rest ih =>
    rw [List.map_cons, List.nodup_cons] at hn
    rcases List.mem_cons.mp hm with hm | hm
    · rw [← hm]
      simp [alookup]
    · by_cases hk : p.1 = k
      · exfalso
        apply hn.1
        rw [hk]
        exact List.mem_map_of_mem _ hm
      · simp only [alookup, if_neg hk]
        exact ih hn.2 hm

/-- C1: every id returned by `add_client` resolves through `get_client` to
a record carrying that id, and keeps doing so across any further
operations that do not remove it; after `remove_client(id)` the lookup is
`none`, a second `remove_client(id)` leaves the registry unchanged, and
`remove_client` of an id that was never registered is a no-op. -/
theorem C1_client_lifecycle (s : InMemoryStorage) (cid : Nat) (ops : List Op)
    (hops : Op.removeClient cid ∉ ops) :
    (ClientManager.add_client s cid).get_client cid = some ⟨cid, none⟩
    ∧ ((applyOps ops (ClientManager.add_client s cid)).get_client cid).map Client.id
        = some cid
    ∧ (ClientManager.remove_client
        (applyOps ops (ClientManager.add_client s cid)) cid).get_client cid = none
    ∧ ClientManager.remove_client
        (ClientManager.remove_client (applyOps ops (ClientManager.add_client s cid)) cid) cid
        = ClientManager.remove_client (applyOps ops (ClientManager.add_client s cid)) cid
    ∧ (∀ cid', s.get_client cid' = none → ClientManager.remove_client s cid' = s) := by
  have hadd : (ClientManager.add_client s cid).get_client cid = some ⟨cid, none⟩ := by
    simp [ClientManager.add_client, InMemoryStorage.add_client,
      InMemoryStorage.get_client, alookup]
  refine ⟨hadd, ?_, ?_, ?_, ?_⟩
  · exact getId_preserved_ops hops (by rw [hadd]; rfl)
  · exact get_client_after_remove _ cid
  · exact remove_client_noop (get_client_after_remove _ cid)
  · exact fun cid' h => remove_client_noop h

theorem C1_client_lifecycle_witness :
    Op.removeClient 1 ∉ [Op.addClient 2, Op.subscribe 1 "cats", Op.removeClient 2]
    ∧ ((ClientManager.add_client InMemoryStorage.empty 1).get_client 1 = some ⟨1, none⟩
      ∧ ((applyOps [Op.addClient 2, Op.subscribe 1 "cats", Op.removeClient 2]
            (ClientManager.add_client InMemoryStorage.empty 1)).get_client 1).map Client.id
          = some 1
      ∧ (ClientManager.remove_client
          (applyOps [Op.addClient 2, Op.subscribe 1 "cats", Op.removeClient 2]
            (ClientManager.add_client InMemoryStorage.empty 1)) 1).get_client 1 = none
      ∧ ClientManager.remove_client
          (ClientManager.remove_client
            (applyOps [Op.addClient 2, Op.subscribe 1 "cats", Op.removeClient 2]
              (ClientManager.add_client InMemoryStorage.empty 1)) 1) 1
          = ClientManager.remove_client
              (applyOps [Op.addClient 2, Op.subscribe 1 "cats", Op.removeClient 2]
                (ClientManager.add_client InMemoryStorage.empty 1)) 1
      ∧ (∀ cid', InMemoryStorage.empty.get_client cid' = none →
          ClientManager.remove_client InMemoryStorage.empty cid' = InMemoryStorage.empty)) :=
  ⟨by decide, C1_client_lifecycle InMemoryStorage.empty 1 _ (by decide)⟩

/-- The registry state used to probe the acknowledgment path: one
registered client with id 0 and no topic. -/
def ackProbeState : InMemoryStorage := ⟨[(0, ⟨0, none⟩)], []⟩

/-- C2: the spec says an inbound `MessageReceived{msg_id}` payload is
forwarded to `handle_ack` with the sender's id.  In the code the
dispatcher cannot even decode that payload (the server-side enum lacks
the variant, and `handle_message` has no arm for it): the payload takes
the error path, one `Error` message is sent back to the sender, and
`handle_message_acknowledgment` is never called (third component `[]`).
The repository's own client sends exactly this payload
(`neo/src/core/client.rs`, `MessageReceived` after printing a server
message), so the server answers every acknowledgment with a protocol
error. -/
theorem C2_message_received_not_forwarded :
    morphDecode (Neo.ClientMessage.MessageReceived 7) = none
    ∧ handle_message 0 99 (morphDecode (Neo.ClientMessage.MessageReceived 7)) ackProbeState
        = (ackProbeState, [(0, ServerMessage.Error "Invalid message format")], []) := by
  constructor
  · rfl
  · rfl

/-- C5: `broadcast_global(msg)` enqueues the very message `msg` (same id,
same content) onto the delivery channel of every currently registered
client, whatever each client's `topic` field holds. -/
theorem C5_broadcast_global_all_clients (s : InMemoryStorage) (msg : ServerMessage)
    (hk : Keyed s) :
    ClientManager.broadcast_global s msg = s.get_all_clients.map (fun c => (c.id, msg))
    ∧ ∀ c ∈ s.get_all_clients, (c.id, msg) ∈ ClientManager.broadcast_global s msg := by
  have heq := @broadcast_global_eq s msg hk
  refine ⟨heq, ?_⟩
  intro c hc
  rw [heq]
  exact List.mem_map_of_mem _ hc

theorem C5_broadcast_global_all_clients_witness :
    Keyed ⟨[(1, ⟨1, some "cats"⟩), (2, ⟨2, none⟩)], [("cats", [1])]⟩
    ∧ (ClientManager.broadcast_global
        ⟨[(1, ⟨1, some "cats"⟩), (2, ⟨2, none⟩)], [("cats", [1])]⟩
        (ServerMessage.Global 5 "hi")
        = (InMemoryStorage.get_all_clients
            ⟨[(1, ⟨1, some "cats"⟩), (2, ⟨2, none⟩)], [("cats", [1])]⟩).map
          (fun c => (c.id, ServerMessage.Global 5 "hi"))
      ∧ ∀ c ∈ InMemoryStorage.get_all_clients
          ⟨[(1, ⟨1, some "cats"⟩), (2, ⟨2, none⟩)], [("cats", [1])]⟩,
          (c.id, ServerMessage.Global 5 "hi") ∈ ClientManager.broadcast_global
            ⟨[(1, ⟨1, some "cats"⟩), (2, ⟨2, none⟩)], [("cats", [1])]⟩
            (ServerMessage.Global 5 "hi")) :=
  ⟨by decide, C5_broadcast_global_all_clients _ _ (by decide)⟩

/-- C6: `send_private` to an id absent from the client table delivers
nothing (empty event list) and surfaces no error; the Rust function reads
the registry but never writes it, so the registry is untouched by
construction. -/
theorem C6_send_private_unknown (s : InMemoryStorage) (cid : Nat) (msg : ServerMessage)
    (h : s.get_client cid = none) :
    ClientManager.send_private_message s cid msg = [] := by
  have h' : s.get_client cid = none := h
  simp [ClientManager.send_private_message, ClientManager.send_message_to_client, h']

theorem C6_send_private_unknown_witness :
    InMemoryStorage.empty.get_client 5 = none
    ∧ ClientManager.send_private_message InMemoryStorage.empty 5
        (ServerMessage.Private 1 "secret") = [] :=
  ⟨rfl, C6_send_private_unknown InMemoryStorage.empty 5 _ rfl⟩

/-- C3: on `Message{topic', content}` from a connected client the
dispatcher leaves the registry untouched and enqueues one
`Topic` message — carrying the freshly drawn id, the payload's topic
(not the connection's subscribed topic) and the sender's id rendered as
a string — onto the channel of every current subscriber of `topic'`
except the sender; the sender's own channel receives nothing. -/
theorem C3_topic_message_broadcast (s : InMemoryStorage) (cid fresh : Nat)
    (t' content : String) (hk : Keyed s) :
    handle_message cid fresh (some (Morpheus.ClientMessage.Message t' content)) s
      = (s,
         ((s.get_clients_in_topic t').filter (fun c => c.id ≠ cid)).map
           (fun c => (c.id, ServerMessage.Topic fresh t' (toString cid) content)),
         [])
    ∧ ∀ m, (cid, m) ∉
        (handle_message cid fresh (some (Morpheus.ClientMessage.Message t' content)) s).2.1 := by
  have heq : ClientManager.broadcast_to_topic s t'
      (ServerMessage.Topic fresh t' (toString cid) content) (some cid)
      = ((s.get_clients_in_topic t').filter (fun c => c.id ≠ cid)).map
          (fun c => (c.id, ServerMessage.Topic fresh t' (toString cid) content)) :=
    broadcastList_exclude_eq (mem_get_clients_in_topic_lookup hk)
  have h1 : handle_message cid fresh (some (Morpheus.ClientMessage.Message t' content)) s
      = (s,
         ((s.get_clients_in_topic t').filter (fun c => c.id ≠ cid)).map
           (fun c => (c.id, ServerMessage.Topic fresh t' (toString cid) content)),
         []) := by
    simp only [handle_message]
    rw [heq]
  refine ⟨h1, ?_⟩
  intro m hm
  rw [h1] at hm
  obtain ⟨c, hcf, hcm⟩ := List.mem_map.mp hm
  have hpred := List.of_mem_filter hcf
  have hcid : c.id = cid := congrArg Prod.fst hcm
  rw [hcid] at hpred
  simp at hpred

theorem C3_topic_message_broadcast_witness :
    Keyed ⟨[(1, ⟨1, some "cats"⟩), (2, ⟨2, some "cats"⟩)], [("cats", [1, 2])]⟩
    ∧ (handle_message 1 9 (some (Morpheus.ClientMessage.Message "cats" "meow"))
        ⟨[(1, ⟨1, some "cats"⟩), (2, ⟨2, some "cats"⟩)], [("cats", [1, 2])]⟩
        = (⟨[(1, ⟨1, some "cats"⟩), (2, ⟨2, some "cats"⟩)], [("cats", [1, 2])]⟩,
           ((InMemoryStorage.get_clients_in_topic
              ⟨[(1, ⟨1, some "cats"⟩), (2, ⟨2, some "cats"⟩)], [("cats", [1, 2])]⟩
              "cats").filter (fun c => c.id ≠ 1)).map
             (fun c => (c.id, ServerMessage.Topic 9 "cats" (toString 1) "meow")),
           [])
      ∧ ∀ m, (1, m) ∉
          (handle_message 1 9 (some (Morpheus.ClientMessage.Message "cats" "meow"))
            ⟨[(1, ⟨1, some "cats"⟩), (2, ⟨2, some "cats"⟩)], [("cats", [1, 2])]⟩).2.1) :=
  ⟨by decide, C3_topic_message_broadcast _ 1 9 "cats" "meow" (by decide)⟩

/-- C7: an undecodable text payload leaves the registry untouched and
produces exactly one `Error` message, sent back to the same (registered)
client via `send_private`, with no acknowledgment call; and the dispatch
loop goes on to process the remaining frames from the unchanged state —
the bad frame only prepends its error reply to the session's output. -/
theorem C7_undecodable_payload (s : InMemoryStorage) (cid fresh : Nat) (c : Client)
    (rest : List Frame) (hk : Keyed s) (hreg : s.get_client cid = some c) :
    handle_message cid fresh none s
      = (s, [(cid, ServerMessage.Error "Invalid message format")], [])
    ∧ runSession cid (Frame.msg none :: rest) fresh s
      = ((runSession cid rest (fresh + 1) s).1,
         (cid, ServerMessage.Error "Invalid message format")
           :: (runSession cid rest (fresh + 1) s).2.1,
         (runSession cid rest (fresh + 1) s).2.2) := by
  have hcid : c.id = cid := keyed_lookup_id hk hreg
  have h1 : handle_message cid fresh none s
      = (s, [(cid, ServerMessage.Error "Invalid message format")], []) := by
    simp [handle_message, ClientManager.send_private_message,
      ClientManager.send_message_to_client, hreg, hcid]
  refine ⟨h1, ?_⟩
  simp [runSession, h1]

theorem C7_undecodable_payload_witness :
    Keyed ⟨[(3, ⟨3, some "cats"⟩)], [("cats", [3])]⟩
    ∧ InMemoryStorage.get_client ⟨[(3, ⟨3, some "cats"⟩)], [("cats", [3])]⟩ 3
        = some ⟨3, some "cats"⟩
    ∧ (handle_message 3 0 none ⟨[(3, ⟨3, some "cats"⟩)], [("cats", [3])]⟩
        = (⟨[(3, ⟨3, some "cats"⟩)], [("cats", [3])]⟩,
           [(3, ServerMessage.Error "Invalid message format")], [])
      ∧ runSession 3 (Frame.msg none :: [Frame.msg (some (Morpheus.ClientMessage.Connect "dogs"))])
          0 ⟨[(3, ⟨3, some "cats"⟩)], [("cats", [3])]⟩
        = ((runSession 3 [Frame.msg (some (Morpheus.ClientMessage.Connect "dogs"))] (0 + 1)
              ⟨[(3, ⟨3, some "cats"⟩)], [("cats", [3])]⟩).1,
           (3, ServerMessage.Error "Invalid message format")
             :: (runSession 3 [Frame.msg (some (Morpheus.ClientMessage.Connect "dogs"))] (0 + 1)
               ⟨[(3, ⟨3, some "cats"⟩)], [("cats", [3])]⟩).2.1,
           (runSession 3 [Frame.msg (some (Morpheus.ClientMessage.Connect "dogs"))] (0 + 1)
             ⟨[(3, ⟨3, some "cats"⟩)], [("cats", [3])]⟩).2.2)) :=
  ⟨by decide, by decide,
   C7_undecodable_payload _ 3 0 ⟨3, some "cats"⟩ _ (by decide) (by decide)⟩

/-- C8: `get_all_topics` filters at read time, so every name it returns
has a non-empty subscriber list behind it: the entry itself is non-empty,
and under duplicate-free topic keys the name's subscriber set (its
lookup) is non-empty. -/
theorem C8_no_empty_topic_reported (s : InMemoryStorage) (h : TKeysNodup s) :
    (∀ t ∈ s.get_all_topics, ∃ e ∈ s.topics, e.1 = t ∧ e.2 ≠ [])
    ∧ (∀ t ∈ s.get_all_topics, ∃ ids, alookup s.topics t = some ids ∧ ids ≠ []) := by
  have h1 : ∀ t ∈ s.get_all_topics, ∃ e ∈ s.topics, e.1 = t ∧ e.2 ≠ [] := by
    intro t ht
    obtain ⟨e, he, hef⟩ := List.mem_map.mp ht
    refine ⟨e, List.mem_of_mem_filter he, hef, ?_⟩
    intro hnil
    have hne := List.of_mem_filter he
    rw [hnil] at hne
    simp at hne
  refine ⟨h1, ?_⟩
  intro t ht
  obtain ⟨e, he, hef, hne⟩ := h1 t ht
  refine ⟨e.2, ?_, hne⟩
  have : (t, e.2) ∈ s.topics := by
    rw [← hef]
    exact he
  exact alookup_of_mem_nodup h this

theorem C8_no_empty_topic_reported_witness :
    TKeysNodup ⟨[(1, ⟨1, some "cats"⟩)], [("cats", [1]), ("dogs", [])]⟩
    ∧ ((∀ t ∈ InMemoryStorage.get_all_topics
          ⟨[(1, ⟨1, some "cats"⟩)], [("cats", [1]), ("dogs", [])]⟩,
        ∃ e ∈ [("cats", [1]), ("dogs", ([] : List Nat))], e.1 = t ∧ e.2 ≠ [])
      ∧ (∀ t ∈ InMemoryStorage.get_all_topics
          ⟨[(1, ⟨1, some "cats"⟩)], [("cats", [1]), ("dogs", [])]⟩,
        ∃ ids, alookup [("cats", [1]), ("dogs", ([] : List Nat))] t = some ids ∧ ids ≠ [])) :=
  ⟨by decide, C8_no_empty_topic_reported ⟨[(1, ⟨1, some "cats"⟩)], [("cats", [1]), ("dogs", [])]⟩
    (by decide)⟩

/-- C4: a registered client re-subscribing from topic `tA` to a different
topic `tB` disappears from `tA`'s member list and appears in `tB`'s; and
`subscribe` with an id absent from the client table changes nothing. -/
theorem C4_resubscribe_moves_membership (s : InMemoryStorage) (cid : Nat)
    (tA tB : String) (hne : tA ≠ tB) (hk : Keyed s)
    (hreg : (s.get_client cid).isSome) :
    (∀ c ∈ (ClientManager.subscribe_client_to_topic
        (ClientManager.subscribe_client_to_topic s cid tA) cid tB).get_clients_in_topic tA,
      c.id ≠ cid)
    ∧ (∃ c ∈ (ClientManager.subscribe_client_to_topic
        (ClientManager.subscribe_client_to_topic s cid tA) cid tB).get_clients_in_topic tB,
      c.id = cid)
    ∧ ∀ cid' t, s.get_client cid' = none →
        ClientManager.subscribe_client_to_topic s cid' t = s := by
  obtain ⟨c0, hc0⟩ := Option.isSome_iff_exists.mp hreg
  have hc0' : alookup s.clients cid = some c0 := hc0
  have hs1 : ClientManager.subscribe_client_to_topic s cid tA
      = ⟨aupdate cid (fun cl => { cl with topic := some tA }) s.clients,
         InMemoryStorage.subTopics s cid tA c0⟩ := by
    simp [ClientManager.subscribe_client_to_topic,
      InMemoryStorage.subscribe_client_to_topic, hc0']
  have hk1 : Keyed (ClientManager.subscribe_client_to_topic s cid tA) :=
    keyed_subscribe hk cid tA
  have hk2 : Keyed (ClientManager.subscribe_client_to_topic
      (ClientManager.subscribe_client_to_topic s cid tA) cid tB) :=
    keyed_subscribe hk1 cid tB
  have hlook1 : alookup (ClientManager.subscribe_client_to_topic s cid tA).clients cid
      = some { c0 with topic := some tA } := by
    rw [hs1]
    show alookup (aupdate cid _ s.clients) cid = _
    rw [alookup_aupdate_self, hc0']
    rfl
  have hs2 : ClientManager.subscribe_client_to_topic
      (ClientManager.subscribe_client_to_topic s cid tA) cid tB
      = ⟨aupdate cid (fun cl => { cl with topic := some tB })
           (ClientManager.subscribe_client_to_topic s cid tA).clients,
         InMemoryStorage.subTopics (ClientManager.subscribe_client_to_topic s cid tA) cid tB
           { c0 with topic := some tA }⟩ := by
    conv_lhs => rw [ClientManager.subscribe_client_to_topic]
    simp [InMemoryStorage.subscribe_client_to_topic, hlook1]
  have htopA : alookup (ClientManager.subscribe_client_to_topic
      (ClientManager.subscribe_client_to_topic s cid tA) cid tB).topics tA
      = (alookup (ClientManager.subscribe_client_to_topic s cid tA).topics tA).map
          (eraseAllNat cid) := by
    rw [hs2]
    show alookup (InMemoryStorage.subTopics _ cid tB { c0 with topic := some tA }) tA = _
    rw [alookup_subTopics_other hne]
    exact alookup_removeTopics_self rfl
  refine ⟨?_, ?_, ?_⟩
  · intro c hc
    cases hids : alookup (ClientManager.subscribe_client_to_topic
        (ClientManager.subscribe_client_to_topic s cid tA) cid tB).topics tA with
    | none =>
      simp only [InMemoryStorage.get_clients_in_topic, hids] at hc
      cases hc
    | some ids =>
      simp only [InMemoryStorage.get_clients_in_topic, hids] at hc
      obtain ⟨i, hi, hlic⟩ := mem_resolveClients hc
      rw [htopA] at hids
      cases hl1 : alookup (ClientManager.subscribe_client_to_topic s cid tA).topics tA with
      | none =>
        rw [hl1] at hids
        cases hids
      | some ids0 =>
        rw [hl1] at hids
        have hids' : ids = eraseAllNat cid ids0 := (Option.some.inj hids).symm
        have hine : i ≠ cid := by
          rw [hids'] at hi
          exact (mem_eraseAllNat hi).2
        rw [keyed_lookup_id hk2 hlic]
        exact hine
  · obtain ⟨ids, hids, hcid⟩ :=
      @alookup_subTopics_self (ClientManager.subscribe_client_to_topic s cid tA) cid tB
        { c0 with topic := some tA }
    have hlook2 : alookup (ClientManager.subscribe_client_to_topic
        (ClientManager.subscribe_client_to_topic s cid tA) cid tB).clients cid
        = some { c0 with topic := some tB } := by
      rw [hs2]
      show alookup (aupdate cid _ _) cid = _
      rw [alookup_aupdate_self, hlook1]
      rfl
    have htopB : alookup (ClientManager.subscribe_client_to_topic
        (ClientManager.subscribe_client_to_topic s cid tA) cid tB).topics tB = some ids := by
      rw [hs2]
      exact hids
    refine ⟨{ c0 with topic := some tB }, ?_, ?_⟩
    · simp only [InMemoryStorage.get_clients_in_topic, htopB]
      exact resolveClients_mem_of hcid hlook2
    · show c0.id = cid
      exact keyed_lookup_id hk hc0'
  · intro cid' t h
    have h' : alookup s.clients cid' = none := h
    simp [ClientManager.subscribe_client_to_topic,
      InMemoryStorage.subscribe_client_to_topic, h']

theorem C4_resubscribe_moves_membership_witness :
    ("A" : String) ≠ "B"
    ∧ Keyed ⟨[(1, ⟨1, none⟩)], []⟩
    ∧ (InMemoryStorage.get_client ⟨[(1, ⟨1, none⟩)], []⟩ 1).isSome = true
    ∧ ((∀ c ∈ (ClientManager.subscribe_client_to_topic
          (ClientManager.subscribe_client_to_topic ⟨[(1, ⟨1, none⟩)], []⟩ 1 "A") 1
          "B").get_clients_in_topic "A", c.id ≠ 1)
      ∧ (∃ c ∈ (ClientManager.subscribe_client_to_topic
          (ClientManager.subscribe_client_to_topic ⟨[(1, ⟨1, none⟩)], []⟩ 1 "A") 1
          "B").get_clients_in_topic "B", c.id = 1)
      ∧ ∀ cid' t, InMemoryStorage.get_client ⟨[(1, ⟨1, none⟩)], []⟩ cid' = none →
          ClientManager.subscribe_client_to_topic ⟨[(1, ⟨1, none⟩)], []⟩ cid' t
            = ⟨[(1, ⟨1, none⟩)], []⟩) :=
  ⟨by decide, by decide, by decide,
   C4_resubscribe_moves_membership ⟨[(1, ⟨1, none⟩)], []⟩ 1 "A" "B"
     (by decide) (by decide) (by decide)⟩

/-- C9: in every reachable registry state, every id in a topic's
subscriber set resolves to a registered client (no dangling references)
whose own record names that topic, any two topic entries sharing a
member are the same entry (membership in at most one set), and every
system operation issued from such a state leads again to a reachable —
hence invariant-satisfying — state; reads never mutate the state. -/
theorem C9_registry_invariants (s : InMemoryStorage) (h : Reachable s) :
    (∀ e ∈ s.topics, ∀ cid ∈ e.2, (s.get_client cid).isSome)
    ∧ (∀ e ∈ s.topics, ∀ cid ∈ e.2, ∃ c, s.get_client cid = some c ∧ c.topic = some e.1)
    ∧ (∀ e1 ∈ s.topics, ∀ e2 ∈ s.topics, ∀ cid, cid ∈ e1.2 → cid ∈ e2.2 → e1 = e2)
    ∧ (∀ op, OpOK op s → Reachable (applyOp op s)) := by
  have hi := reachable_reginv h
  refine ⟨?_, ?_, ?_, ?_⟩
  · intro e he cid hcid
    obtain ⟨c, hc, _⟩ := hi.member e he cid hcid
    show (alookup s.clients cid).isSome
    rw [hc]
    rfl
  · exact fun e he cid hcid => hi.member e he cid hcid
  · intro e1 h1 e2 h2 cid hc1 hc2
    obtain ⟨c, hca, hta⟩ := hi.member e1 h1 cid hc1
    obtain ⟨c', hcb, htb⟩ := hi.member e2 h2 cid hc2
    have hcc : c = c' := by
      rw [hca] at hcb
      exact Option.some.inj hcb
    have hkey : e1.1 = e2.1 := by
      rw [hcc] at hta
      rw [hta] at htb
      exact Option.some.inj htb
    exact mem_keys_nodup_eq hi.tkeys h1 h2 hkey
  · exact fun op hop => Reachable.step op h hop

theorem C9_registry_invariants_witness :
    Reachable (applyOp (Op.subscribe 1 "cats") (applyOp (Op.addClient 1)
      InMemoryStorage.empty))
    ∧ ((∀ e ∈ (applyOp (Op.subscribe 1 "cats") (applyOp (Op.addClient 1)
          InMemoryStorage.empty)).topics, ∀ cid ∈ e.2,
        ((applyOp (Op.subscribe 1 "cats") (applyOp (Op.addClient 1)
          InMemoryStorage.empty)).get_client cid).isSome)
      ∧ (∀ e ∈ (applyOp (Op.subscribe 1 "cats") (applyOp (Op.addClient 1)
          InMemoryStorage.empty)).topics, ∀ cid ∈ e.2,
        ∃ c, (applyOp (Op.subscribe 1 "cats") (applyOp (Op.addClient 1)
          InMemoryStorage.empty)).get_client cid = some c ∧ c.topic = some e.1)
      ∧ (∀ e1 ∈ (applyOp (Op.subscribe 1 "cats") (applyOp (Op.addClient 1)
          InMemoryStorage.empty)).topics,
         ∀ e2 ∈ (applyOp (Op.subscribe 1 "cats") (applyOp (Op.addClient 1)
          InMemoryStorage.empty)).topics,
         ∀ cid, cid ∈ e1.2 → cid ∈ e2.2 → e1 = e2)
      ∧ (∀ op, OpOK op (applyOp (Op.subscribe 1 "cats") (applyOp (Op.addClient 1)
          InMemoryStorage.empty)) →
        Reachable (applyOp op (applyOp (Op.subscribe 1 "cats") (applyOp (Op.addClient 1)
          InMemoryStorage.empty))))) :=
  ⟨Reachable.step (Op.subscribe 1 "cats")
     (Reachable.step (Op.addClient 1) Reachable.empty rfl) trivial,
   C9_registry_invariants _ (Reachable.step (Op.subscribe 1 "cats")
     (Reachable.step (Op.addClient 1) Reachable.empty rfl) trivial)⟩

/-- C10: in every reachable registry state every topic's subscriber list
is duplicate-free, `subscribe` (including re-subscribing to the current
topic) keeps it so, and a single `broadcast_to_topic` call therefore
enqueues at most one copy of the message per recipient. -/
theorem C10_no_duplicate_delivery (s : InMemoryStorage) (h : Reachable s) :
    (∀ e ∈ s.topics, e.2.Nodup)
    ∧ (∀ cid t, ∀ e ∈ (ClientManager.subscribe_client_to_topic s cid t).topics, e.2.Nodup)
    ∧ (∀ t msg ex, ((ClientManager.broadcast_to_topic s t msg ex).map Prod.fst).Nodup) := by
  have hi := reachable_reginv h
  refine ⟨hi.tnodup, ?_, ?_⟩
  · intro cid t e he
    exact (reginv_subscribe hi cid t).tnodup e he
  · intro t msg ex
    exact recipients_nodup hi.keyed (get_clients_in_topic_ids_nodup hi t)

theorem C10_no_duplicate_delivery_witness :
    Reachable (applyOp (Op.subscribe 2 "dogs") (applyOp (Op.addClient 2)
      InMemoryStorage.empty))
    ∧ ((∀ e ∈ (applyOp (Op.subscribe 2 "dogs") (applyOp (Op.addClient 2)
          InMemoryStorage.empty)).topics, e.2.Nodup)
      ∧ (∀ cid t, ∀ e ∈ (ClientManager.subscribe_client_to_topic
          (applyOp (Op.subscribe 2 "dogs") (applyOp (Op.addClient 2)
            InMemoryStorage.empty)) cid t).topics, e.2.Nodup)
      ∧ (∀ t msg ex, ((ClientManager.broadcast_to_topic
          (applyOp (Op.subscribe 2 "dogs") (applyOp (Op.addClient 2)
            InMemoryStorage.empty)) t msg ex).map Prod.fst).Nodup)) :=
  ⟨Reachable.step (Op.subscribe 2 "dogs")
     (Reachable.step (Op.addClient 2) Reachable.empty rfl) trivial,
   C10_no_duplicate_delivery _ (Reachable.step (Op.subscribe 2 "dogs")
     (Reachable.step (Op.addClient 2) Reachable.empty rfl) trivial)⟩
